import Mathlib

/-!
Shallow embedding of the SpeakUpProject discussion-board client
(`src/frontend/src/App.tsx`; the unnamed source variants share the same
helper functions).  The embedding covers the reply-tree builder
(`repliesByParent` / `renderReplies`), the ownership and session store
(`canDelete*`, the four mutation handlers) and the storage rehydration
helpers (`readTokenMap` / `readStoredAuthUser`), together with the
theorems that settle the specification claims about them.
-/

namespace SpeakUp

/-- Model of a JavaScript JSON value (the result of a successful `JSON.parse`). -/
inductive Json where
  | null
  | bool (b : Bool)
  | num (n : Int)
  | str (s : String)
  | arr (elems : List Json)
  | obj (fields : List (String × Json))

/-- A reply as delivered by the API (`type Reply` in App.tsx).  `created_at` is
modelled as the numeric value of the ISO date string: the code only ever uses
the field through `+new Date(created_at)`, which is monotone in the instant the
string denotes. -/
structure Reply where
  id : Nat
  thread_id : Nat
  parent_id : Option Nat
  body : String
  author_name : Option String
  is_anonymous : Bool
  created_at : Int
deriving DecidableEq

/-- The authenticated user profile (`type AuthUser` in App.tsx). -/
structure AuthUser where
  id : Nat
  username : String
  email : String
deriving DecidableEq

/-- Little-endian base-10 digits, with explicit fuel so that the kernel can
evaluate it (mirrors `Nat.digits 10`, which is proved below). -/
def digitsRev (fuel n : Nat) : List Nat :=
  match fuel with
  | 0 => []
  | fuel + 1 => if n = 0 then [] else n % 10 :: digitsRev fuel (n / 10)

/-- One decimal digit rendered as a character (48 is the code point of the
zero character). -/
def digitChar (d : Nat) : Char :=
  Char.ofNat (48 + d)

/-- Inverse of `digitChar` on decimal digit characters. -/
def charDigit (c : Char) : Option Nat :=
  if 48 ≤ c.toNat ∧ c.toNat ≤ 57 then some (c.toNat - 48) else none

/-- Model of JavaScript `String(n)` for a natural number: the canonical decimal
numeral. -/
def natToKey (n : Nat) : String :=
  if n = 0 then "0" else String.mk (((digitsRev n n).reverse).map digitChar)

/-- Big-endian digit reading of a character list; `none` as soon as a character
is not a decimal digit. -/
def charsToDigits : List Char → Option (List Nat)
  | [] => some []
  | c :: cs =>
    match charDigit c, charsToDigits cs with
    | some d, some ds => some (d :: ds)
    | _, _ => none

/-- Model of JavaScript `Number(s)` restricted to the fragment this client
exercises: a non-empty string of decimal digits parses to the corresponding
natural number, anything else behaves as NaN (`none`).  (JS quirks outside
this fragment, such as `Number("") = 0` or floats, are never produced by the
client's own serialisation, which writes canonical numerals.) -/
def keyToNat (s : String) : Option Nat :=
  match charsToDigits s.data with
  | none => none
  | some ds => if ds = [] then none else some (Nat.ofDigits 10 ds.reverse)

/-- The grouping key `String(parentId ?? "root")` used by the tree builder. -/
def parentKey (pid : Option Nat) : String :=
  match pid with
  | none => "root"
  | some n => natToKey n

/-- The key under which a reply is filed: `String(reply.parent_id ?? "root")`. -/
def groupKey (r : Reply) : String :=
  parentKey r.parent_id

/-- Insertion before the first strictly-later element: building block of the
stable ascending sort. -/
def insertByCreated (r : Reply) : List Reply → List Reply
  | [] => [r]
  | s :: rest =>
    if r.created_at ≤ s.created_at then r :: s :: rest else s :: insertByCreated r rest

/-- Stable ascending sort by creation time, modelling
`grouped[key].sort((a, b) => +new Date(a.created_at) - +new Date(b.created_at))`
(App.tsx line 560); `Array.prototype.sort` is stable, and a stable ascending
sort is uniquely determined by its input. -/
def sortByCreated : List Reply → List Reply
  | [] => []
  | r :: rest => insertByCreated r (sortByCreated rest)

/-- `repliesByParent` (App.tsx lines 552-563): group `thread.replies` by
`String(parent_id ?? "root")` and sort each group ascending by creation time.
The JS loop pushes replies into their group in input order, so a group's
pre-sort content is the order-preserving filter of the flat list. -/
def repliesByParent (replies : List Reply) (key : String) : List Reply :=
  sortByCreated (replies.filter (fun r => groupKey r == key))

/-- `renderReplies` (App.tsx lines 565-588), flattened to the (reply, depth)
sequence it renders: for each child of the given parent key, emit the child at
the current depth and then recurse on the child's id at depth + 1.  The JS
function recurses with no guard; `fuel` models the call-stack budget, and
running out of fuel (the `[]` at fuel 0) stands for the recursion failing to
return. -/
def renderRepliesFuel (replies : List Reply) (fuel : Nat) (pid : Option Nat) (depth : Nat) :
    List (Reply × Nat) :=
  match fuel with
  | 0 => []
  | fuel + 1 =>
    (repliesByParent replies (parentKey pid)).flatMap
      (fun r => (r, depth) :: renderRepliesFuel replies fuel (some r.id) (depth + 1))

/-- The rendering sequence of a whole thread (`renderReplies(null, 0)`); with
pairwise distinct reply ids the expansion is fuel-independent from
`length + 1` on (proved below), so that budget is taken as canonical. -/
def renderReplies (replies : List Reply) : List (Reply × Nat) :=
  renderRepliesFuel replies (replies.length + 1) none 0

/-- JavaScript `a || b` for strings: the empty string is falsy. -/
def jsOrString (a b : String) : String :=
  if a == "" then b else a

/-- `formatAuthor` (App.tsx lines 64-67). -/
def formatAuthor (name : Option String) (isAnonymous : Bool) : String :=
  if isAnonymous then "Anonymous"
  else
    match name with
    | none => "Unknown"
    | some s => jsOrString s "Unknown"

/-- JavaScript truthiness of `map[id]` for a string-valued map: `undefined`
and the empty string are falsy. -/
def jsTruthy (v : Option String) : Bool :=
  match v with
  | none => false
  | some s => !(s == "")

/-- Lookup `tokens[id]` in an object literal used as a map. -/
def assocGet (m : List (Nat × String)) (k : Nat) : Option String :=
  (m.find? (fun e => e.1 == k)).map (fun e => e.2)

/-- The update `{ ...prev, [id]: token }`: an existing key keeps its position
and gets the new value, a new key is appended. -/
def assocSet (m : List (Nat × String)) (k : Nat) (v : String) : List (Nat × String) :=
  match m with
  | [] => [(k, v)]
  | e :: rest => if e.1 == k then (k, v) :: rest else e :: assocSet rest k v

/-- The statement `delete next[id]` on an object used as a map. -/
def assocDel (m : List (Nat × String)) (k : Nat) : List (Nat × String) :=
  m.filter (fun e => !(e.1 == k))

/-- The slice of App state that the ownership and session claims are about
(App.tsx lines 96-106).  Form fields, theme and the fetched thread list are
presentational and are not modelled. -/
structure AppState where
  threadTokens : List (Nat × String)
  replyTokens : List (Nat × String)
  authToken : Option String
  authUser : Option AuthUser
  error : Option String
deriving DecidableEq

/-- `const isAuthed = Boolean(authToken && authUser)` (App.tsx line 107). -/
def isAuthed (st : AppState) : Bool :=
  jsTruthy st.authToken && st.authUser.isSome

/-- `canDeleteThread={Boolean(threadTokens[thread.id]) && isAuthed}`
(App.tsx line 505). -/
def canDeleteThread (st : AppState) (threadId : Nat) : Bool :=
  jsTruthy (assocGet st.threadTokens threadId) && isAuthed st

/-- `canDeleteReply={(replyId) => Boolean(replyTokens[replyId]) && isAuthed}`
(App.tsx line 506). -/
def canDeleteReply (st : AppState) (replyId : Nat) : Bool :=
  jsTruthy (assocGet st.replyTokens replyId) && isAuthed st

/-- The fields of the thread-creation response that the handler reads
(`ThreadCreateResponse`). -/
structure ThreadCreateResponse where
  id : Nat
  owner_token : String
deriving DecidableEq

/-- The fields of the reply-creation response that the handler reads
(`ReplyCreateResponse`). -/
structure ReplyCreateResponse where
  id : Nat
  owner_token : String
deriving DecidableEq

/-- `handleCreateThread` (App.tsx lines 157-196).  The network interaction is
abstracted as `response`: `.error msg` covers a non-ok status and a transport
error (both reach the catch block, which only sets the error message), `.ok`
the parsed created thread.  `ownerToken` is the locally generated token.  The
second component records whether a network request was issued.  Form-field
resets and the subsequent thread reload touch only unmodelled state. -/
def handleCreateThread (st : AppState) (ownerToken : String)
    (response : Except String ThreadCreateResponse) : AppState × Bool :=
  let st1 := { st with error := none }
  if !(jsTruthy st.authToken) then
    ({ st1 with error := some "Please sign in to create a thread." }, false)
  else
    match response with
    | .error msg => ({ st1 with error := some msg }, true)
    | .ok created =>
      ({ st1 with
          threadTokens :=
            assocSet st1.threadTokens created.id (jsOrString created.owner_token ownerToken) },
        true)

/-- `handleCreateReply` (App.tsx lines 198-240), abstracted like
`handleCreateThread`.  `threadId` only selects the request URL and per-thread
form state, which are unmodelled. -/
def handleCreateReply (st : AppState) (threadId : Nat) (ownerToken : String)
    (response : Except String ReplyCreateResponse) : AppState × Bool :=
  let st1 := { st with error := none }
  if !(jsTruthy st.authToken) then
    ({ st1 with error := some "Please sign in to reply." }, false)
  else
    match response with
    | .error msg => ({ st1 with error := some msg }, true)
    | .ok created =>
      ({ st1 with
          replyTokens :=
            assocSet st1.replyTokens created.id (jsOrString created.owner_token ownerToken) },
        true)

/-- `handleDeleteThread` (App.tsx lines 242-261): a missing (or falsy) owner
token returns silently before `setError(null)` and before any request. -/
def handleDeleteThread (st : AppState) (threadId : Nat)
    (response : Except String Unit) : AppState × Bool :=
  if !(jsTruthy (assocGet st.threadTokens threadId)) then (st, false)
  else
    let st1 := { st with error := none }
    match response with
    | .error msg => ({ st1 with error := some msg }, true)
    | .ok _ => ({ st1 with threadTokens := assocDel st1.threadTokens threadId }, true)

/-- `handleDeleteReply` (App.tsx lines 263-282). -/
def handleDeleteReply (st : AppState) (threadId : Nat) (replyId : Nat)
    (response : Except String Unit) : AppState × Bool :=
  if !(jsTruthy (assocGet st.replyTokens replyId)) then (st, false)
  else
    let st1 := { st with error := none }
    match response with
    | .error msg => ({ st1 with error := some msg }, true)
    | .ok _ => ({ st1 with replyTokens := assocDel st1.replyTokens replyId }, true)

/-- The token-and-session core of the state, used to state that failed
operations change none of it. -/
def ownershipCore (st : AppState) :
    List (Nat × String) × List (Nat × String) × Option String × Option AuthUser :=
  (st.threadTokens, st.replyTokens, st.authToken, st.authUser)

/-- Index-keyed entries of an array value, as `Object.entries` produces them. -/
def entriesIdx (i : Nat) : List Json → List (String × Json)
  | [] => []
  | v :: vs => (natToKey i, v) :: entriesIdx (i + 1) vs

/-- Index-keyed entries of a string value, as `Object.entries` produces them. -/
def entriesIdxChar (i : Nat) : List Char → List (String × Json)
  | [] => []
  | c :: cs => (natToKey i, Json.str (String.mk [c])) :: entriesIdxChar (i + 1) cs

/-- `Object.entries(v)`: throws a TypeError (`.error`) on `null`; arrays and
strings yield index-keyed entries; the other primitives yield nothing. -/
def jsObjectEntries : Json → Except Unit (List (String × Json))
  | .null => .error ()
  | .obj fields => .ok fields
  | .arr elems => .ok (entriesIdx 0 elems)
  | .str s => .ok (entriesIdxChar 0 s.data)
  | .bool _ => .ok []
  | .num _ => .ok []

/-- Object property keys are strings: the number produced by `Number(id)` is
stored back as its string form.  Restricted to the canonical-numeral fragment
of `Number`; a key outside it behaves as NaN. -/
def normalizeNumKey (k : String) : String :=
  match keyToNat k with
  | some n => natToKey n
  | none => "NaN"

/-- String-keyed variant of `assocSet`, for the rehydrated store. -/
def assocSetS (m : List (String × Json)) (k : String) (v : Json) : List (String × Json) :=
  match m with
  | [] => [(k, v)]
  | e :: rest => if e.1 == k then (k, v) :: rest else e :: assocSetS rest k v

/-- `Object.fromEntries`: assign the pairs left to right (a later pair with the
same key overwrites the earlier value). -/
def fromEntries (l : List (String × Json)) : List (String × Json) :=
  l.foldl (fun acc e => assocSetS acc e.1 e.2) []

/-- Property lookup on the rehydrated object. -/
def assocGetS (m : List (String × Json)) (k : String) : Option Json :=
  (m.find? (fun e => e.1 == k)).map (fun e => e.2)

/-- `readTokenMap` (App.tsx lines 38-47).  `jsonParse` stands for `JSON.parse`
with `.error` for a parse exception; the surrounding try/catch turns every
exception (including the TypeError `Object.entries` raises on `null`) into the
empty map, and a missing or empty raw value returns the empty map before
parsing. -/
def readTokenMap (jsonParse : String → Except Unit Json) (raw : Option String) :
    List (String × Json) :=
  match raw with
  | none => []
  | some s =>
    if s == "" then []
    else
      match jsonParse s with
      | .error _ => []
      | .ok j =>
        match jsObjectEntries j with
        | .error _ => []
        | .ok entries => fromEntries (entries.map (fun e => (normalizeNumKey e.1, e.2)))

/-- `readStoredAuthUser` (App.tsx lines 49-57): a missing or empty raw value
and any parse exception give `null`; otherwise whatever JSON was stored is
returned unchecked (the `as AuthUser` cast is erased at runtime). -/
def readStoredAuthUser (jsonParse : String → Except Unit Json) (raw : Option String) :
    Option Json :=
  match raw with
  | none => none
  | some s =>
    if s == "" then none
    else
      match jsonParse s with
      | .error _ => none
      | .ok j => some j

/-- The structural content of `JSON.stringify(tokens)` as written by the
persistence effects (App.tsx lines 133-139): an object with the decimal key
strings and the token strings. -/
def tokenMapToJson (m : List (Nat × String)) : Json :=
  .obj (m.map (fun e => (natToKey e.1, Json.str e.2)))

/-- Reading `tokens[id]` from the rehydrated store (property access by the
string form of the numeric id). -/
def rehydratedLookup (m : List (String × Json)) (id : Nat) : Option Json :=
  assocGetS m (natToKey id)

/-- The recursion spine of `renderReplies`: starting from the root call, each
step expands one child of the current key and descends into its id.  The list
collects the replies consumed on the way down. -/
inductive Chain (R : List Reply) : List Reply → Option Nat → Prop where
  | root : Chain R [] none
  | step {P : List Reply} {pid : Option Nat} {c : Reply} :
      Chain R P pid → c ∈ repliesByParent R (parentKey pid) → Chain R (c :: P) (some c.id)

/-- Resolving `parent_id` against the thread: the first reply of `R` carrying
the parent id, if any. -/
def parentOf (R : List Reply) (r : Reply) : Option Reply :=
  match r.parent_id with
  | none => none
  | some p => R.find? (fun s => s.id == p)

/-- Iterated parent resolution. -/
def pIter (R : List Reply) : Nat → Reply → Option Reply
  | 0, r => some r
  | n + 1, r =>
    match parentOf R r with
    | none => none
    | some q => pIter R n q

/-- A reply whose parent chain resolves down to a top-level reply of the
thread; this is the well-formedness the server guarantees for real data. -/
inductive Reaches (R : List Reply) : Reply → Prop where
  | top {r : Reply} : r.parent_id = none → Reaches R r
  | step {r q : Reply} : q ∈ R → r.parent_id = some q.id → Reaches R q → Reaches R r

/-- A well-formed two-level thread used as concrete witness data. -/
def forestReplies : List Reply :=
  [⟨1, 1, none, "top", none, true, 10⟩,
   ⟨2, 1, some 1, "child", none, true, 20⟩,
   ⟨3, 1, none, "top2", none, true, 15⟩]

/-- A collection with a self-parent reply and a two-cycle besides a normal
top-level reply: used to witness termination without acyclicity. -/
def cycReplies : List Reply :=
  [⟨1, 1, some 1, "self", none, true, 0⟩,
   ⟨2, 1, some 3, "cycA", none, true, 0⟩,
   ⟨3, 1, some 2, "cycB", none, true, 0⟩,
   ⟨4, 1, none, "top", none, true, 0⟩]

/-- A collection consisting of a single orphan reply (its parent id `99`
matches no reply id). -/
def orphanReplies : List Reply :=
  [⟨1, 1, some 99, "orphan", none, true, 0⟩]

/-- A second orphan collection (parent id `5` unmatched), with a sibling
top-level reply. -/
def orphanReplies2 : List Reply :=
  [⟨1, 1, some 5, "lost", none, true, 0⟩,
   ⟨2, 1, none, "top", none, true, 0⟩]

/-- A state with a recorded thread token and a bearer token but no user
profile: no session is active. -/
def noSessionState : AppState :=
  ⟨[(1, "tok")], [], some "auth", none, none⟩

/-- A concrete stand-in for `JSON.parse` used by the round-trip witness: it
recognises one raw string and maps it to the serialised store. -/
def rtParse : String → Except Unit Json :=
  fun s =>
    if s = "payload" then .ok (tokenMapToJson (assocSet [] 7 "tok")) else .error ()

/-- A signed-in state with one thread token and one reply token recorded. -/
def authedState : AppState :=
  ⟨[(1, "tok")], [(2, "rtk")], some "auth", some ⟨1, "u", "u@example.com"⟩, none⟩

/-- A signed-out state that still holds a thread token. -/
def signedOutState : AppState :=
  ⟨[(1, "tok")], [], none, none, none⟩

/-- A stand-in for `JSON.parse` that fails on every input (malformed storage). -/
def failParse : String → Except Unit Json :=
  fun _ => .error ()

/-- The fuel-based digit list agrees with `Nat.digits 10` whenever the fuel
covers the input. -/
theorem digitsRev_eq_digits : ∀ fuel n, n ≤ fuel → digitsRev fuel n = Nat.digits 10 n := by
  intro fuel
  induction fuel with
  | zero =>
    intro n hn
    have h0 : n = 0 := Nat.le_zero.mp hn
    subst h0
    simp [digitsRev]
  | succ f ih =>
    intro n hn
    by_cases h : n = 0
    · subst h
      simp [digitsRev]
    · have hpos : 0 < n := Nat.pos_of_ne_zero h
      have hdiv : n / 10 ≤ f := by
        have := Nat.div_lt_self hpos (by norm_num : (1:ℕ) < 10)
        omega
      rw [digitsRev, if_neg h, ih _ hdiv,
        Nat.digits_def' (by norm_num : (1:ℕ) < 10) hpos]

/-- `charDigit` inverts `digitChar` on decimal digits. -/
theorem charDigit_digitChar {d : Nat} (h : d < 10) : charDigit (digitChar d) = some d := by
  interval_cases d <;> decide

/-- Reading back a rendered digit list recovers the digits. -/
theorem charsToDigits_map :
    ∀ l : List Nat, (∀ d ∈ l, d < 10) → charsToDigits (l.map digitChar) = some l := by
  intro l
  induction l with
  | nil => intro _; rfl
  | cons d ds ih =>
    intro h
    have hd : d < 10 := h d (by simp)
    have hds := ih (fun x hx => h x (by simp [hx]))
    simp [charsToDigits, charDigit_digitChar hd, hds]

/-- `Number(String(n)) = n` on the canonical-numeral fragment. -/
theorem keyToNat_natToKey (n : Nat) : keyToNat (natToKey n) = some n := by
  by_cases h : n = 0
  · subst h
    rfl
  · have hdig : digitsRev n n = Nat.digits 10 n := digitsRev_eq_digits n n le_rfl
    have hlt : ∀ d ∈ (Nat.digits 10 n).reverse, d < 10 := fun d hd =>
      Nat.digits_lt_base (by norm_num) (List.mem_reverse.mp hd)
    have hne : Nat.digits 10 n ≠ [] := Nat.digits_ne_nil_iff_ne_zero.mpr h
    have hchars :
        charsToDigits ((String.mk (((digitsRev n n).reverse).map digitChar)).data) =
          some ((Nat.digits 10 n).reverse) := by
      show charsToDigits (((digitsRev n n).reverse).map digitChar) = _
      rw [hdig]
      exact charsToDigits_map _ hlt
    have hrev : (Nat.digits 10 n).reverse ≠ [] := by simpa using hne
    rw [natToKey, if_neg h, keyToNat, hchars]
    dsimp only
    rw [if_neg hrev, List.reverse_reverse, Nat.ofDigits_digits]

/-- Distinct naturals have distinct decimal strings. -/
theorem natToKey_injective : Function.Injective natToKey := by
  intro a b hab
  have ha := keyToNat_natToKey a
  rw [hab, keyToNat_natToKey b] at ha
  exact (Option.some_inj.mp ha).symm

/-- The synthetic root key collides with no numeric key. -/
theorem natToKey_ne_root (n : Nat) : natToKey n ≠ "root" := by
  intro h
  have hn := keyToNat_natToKey n
  rw [h] at hn
  have hroot : keyToNat "root" = none := rfl
  rw [hroot] at hn
  exact Option.noConfusion hn

/-- Grouping keys are in bijection with the parent references. -/
theorem parentKey_injective : Function.Injective parentKey := by
  intro a b hab
  cases a with
  | none =>
    cases b with
    | none => rfl
    | some m => exact absurd hab.symm (natToKey_ne_root m)
  | some n =>
    cases b with
    | none => exact absurd hab (natToKey_ne_root n)
    | some m => exact congrArg some (natToKey_injective hab)

/-- Inserting permutes to a cons. -/
theorem insertByCreated_perm (r : Reply) (l : List Reply) :
    (insertByCreated r l).Perm (r :: l) := by
  induction l with
  | nil => exact List.Perm.refl _
  | cons s rest ih =>
    by_cases h : r.created_at ≤ s.created_at
    · rw [insertByCreated, if_pos h]
    · rw [insertByCreated, if_neg h]
      exact (ih.cons s).trans (List.Perm.swap r s rest)

/-- The sort is a permutation of its input. -/
theorem sortByCreated_perm (l : List Reply) : (sortByCreated l).Perm l := by
  induction l with
  | nil => exact List.Perm.refl _
  | cons r rest ih =>
    exact (insertByCreated_perm r (sortByCreated rest)).trans (ih.cons r)

/-- Membership is preserved by the sort. -/
theorem mem_sortByCreated {l : List Reply} {r : Reply} : r ∈ sortByCreated l ↔ r ∈ l :=
  (sortByCreated_perm l).mem_iff

/-- Inserting preserves ascending order. -/
theorem insertByCreated_sorted {r : Reply} {l : List Reply}
    (h : l.Pairwise (fun a b => a.created_at ≤ b.created_at)) :
    (insertByCreated r l).Pairwise (fun a b => a.created_at ≤ b.created_at) := by
  induction l with
  | nil => simp [insertByCreated]
  | cons s rest ih =>
    rcases List.pairwise_cons.mp h with ⟨hs, hrest⟩
    by_cases hle : r.created_at ≤ s.created_at
    · rw [insertByCreated, if_pos hle]
      refine List.pairwise_cons.mpr ⟨?_, h⟩
      intro x hx
      rcases List.mem_cons.mp hx with h1 | h2
      · rw [h1]
        exact hle
      · exact le_trans hle (hs x h2)
    · rw [insertByCreated, if_neg hle]
      refine List.pairwise_cons.mpr ⟨?_, ih hrest⟩
      intro x hx
      have hx2 : x ∈ r :: rest := (insertByCreated_perm r rest).mem_iff.mp hx
      rcases List.mem_cons.mp hx2 with h1 | h2
      · rw [h1]
        exact le_of_lt (lt_of_not_le hle)
      · exact hs x h2

/-- The sort output is ascending in creation time. -/
theorem sortByCreated_sorted (l : List Reply) :
    (sortByCreated l).Pairwise (fun a b => a.created_at ≤ b.created_at) := by
  induction l with
  | nil => simp [sortByCreated]
  | cons r rest ih => exact insertByCreated_sorted ih

/-- Inserting interacts with filtering to a fixed timestamp exactly as a cons
does: this is the stability of the sort. -/
theorem filter_insertByCreated (r : Reply) (l : List Reply) (t : Int) :
    (insertByCreated r l).filter (fun x => x.created_at == t) =
      if r.created_at == t then r :: l.filter (fun x => x.created_at == t)
      else l.filter (fun x => x.created_at == t) := by
  induction l with
  | nil => cases hb : (r.created_at == t) <;> simp [insertByCreated, List.filter_cons, hb]
  | cons s rest ih =>
    by_cases hle : r.created_at ≤ s.created_at
    · rw [insertByCreated, if_pos hle]
      simp only [List.filter_cons]
    · rw [insertByCreated, if_neg hle]
      rw [List.filter_cons, ih]
      by_cases hr : r.created_at = t
      · have hs : (s.created_at == t) = false := by
          have hlt : s.created_at < r.created_at := lt_of_not_le hle
          rw [beq_eq_false_iff_ne]
          omega
        have hrb : (r.created_at == t) = true := beq_iff_eq.mpr hr
        simp [hrb, hs, List.filter_cons]
      · have hrb : (r.created_at == t) = false := beq_eq_false_iff_ne.mpr hr
        simp [hrb, List.filter_cons]

/-- Equal-timestamp replies keep their input order through the sort. -/
theorem filter_sortByCreated (l : List Reply) (t : Int) :
    (sortByCreated l).filter (fun x => x.created_at == t) =
      l.filter (fun x => x.created_at == t) := by
  induction l with
  | nil => rfl
  | cons r rest ih =>
    rw [sortByCreated, filter_insertByCreated, ih, List.filter_cons]

/-- Membership in a group: exactly the replies of the thread carrying that
grouping key. -/
theorem mem_repliesByParent {R : List Reply} {key : String} {r : Reply} :
    r ∈ repliesByParent R key ↔ r ∈ R ∧ groupKey r = key := by
  unfold repliesByParent
  rw [mem_sortByCreated, List.mem_filter]
  simp [beq_iff_eq]

/-- Membership in a group, phrased on parent references. -/
theorem mem_repliesByParent_pid {R : List Reply} {pid : Option Nat} {r : Reply} :
    r ∈ repliesByParent R (parentKey pid) ↔ r ∈ R ∧ r.parent_id = pid := by
  rw [mem_repliesByParent]
  constructor
  · rintro ⟨h1, h2⟩
    exact ⟨h1, parentKey_injective h2⟩
  · rintro ⟨h1, h2⟩
    exact ⟨h1, by rw [groupKey, h2]⟩

/-- With pairwise distinct ids, a reply of the thread is determined by its id. -/
theorem id_inj {R : List Reply} (hN : (R.map Reply.id).Nodup) {a b : Reply}
    (ha : a ∈ R) (hb : b ∈ R) (h : a.id = b.id) : a = b :=
  List.inj_on_of_nodup_map hN ha hb h

/-- Groups of a thread with pairwise distinct ids contain no duplicates. -/
theorem repliesByParent_nodup {R : List Reply} (hN : (R.map Reply.id).Nodup) (key : String) :
    (repliesByParent R key).Nodup := by
  have h1 : R.Nodup := hN.of_map
  exact (sortByCreated_perm _).nodup_iff.mpr (h1.filter (fun r => groupKey r == key))

/-- Resolving an id held by a member of the thread finds exactly that member. -/
theorem find_id_eq {R : List Reply} (hN : (R.map Reply.id).Nodup) {q : Reply} (hq : q ∈ R) :
    R.find? (fun s => s.id == q.id) = some q := by
  induction R with
  | nil => cases hq
  | cons r rest ih =>
    by_cases h : r.id = q.id
    · have hrq : r = q := by
        rcases List.mem_cons.mp hq with h1 | h2
        · rw [h1]
        · exact id_inj hN (List.mem_cons_self _ _) (List.mem_cons.mpr (Or.inr h2)) h
      rw [List.find?_cons_of_pos _ (by simpa using h)]
      exact congrArg some hrq
    · have hq2 : q ∈ rest := by
        rcases List.mem_cons.mp hq with h1 | h2
        · exact absurd (by rw [h1]) h
        · exact h2
      have hN2 : (rest.map Reply.id).Nodup := by
        rw [List.map_cons] at hN
        exact hN.of_cons
      rw [List.find?_cons_of_neg _ (by simpa using h)]
      exact ih hN2 hq2

/-- Invariants of the recursion spine on a distinct-id thread: chained replies
belong to the thread, the chain never repeats a reply, the children of the
current key are disjoint from the chain, and every chained reply hangs off the
root or another chained reply. -/
theorem chain_facts {R : List Reply} (hN : (R.map Reply.id).Nodup) {P : List Reply}
    {pid : Option Nat} (hc : Chain R P pid) :
    (∀ c ∈ P, c ∈ R) ∧ P.Nodup ∧ (∀ r, r ∈ R → r.parent_id = pid → r ∉ P) ∧
      (∀ r ∈ P, r.parent_id = none ∨ ∃ p, p ∈ P ∧ r.parent_id = some p.id) := by
  induction hc with
  | root => exact ⟨by simp, List.nodup_nil, by simp, by simp⟩
  | @step P pid c hchain hmem ih =>
    obtain ⟨ihR, ihNd, ihFresh, ihPar⟩ := ih
    have hcR : c ∈ R ∧ c.parent_id = pid := mem_repliesByParent_pid.mp hmem
    refine ⟨?_, ?_, ?_, ?_⟩
    · intro x hx
      rcases List.mem_cons.mp hx with h1 | h2
      · rw [h1]
        exact hcR.1
      · exact ihR x h2
    · exact List.nodup_cons.mpr ⟨ihFresh c hcR.1 hcR.2, ihNd⟩
    · intro r hrR hrpar hmem2
      rcases List.mem_cons.mp hmem2 with h1 | h2
      · subst h1
        have hpid : pid = some r.id := by rw [← hcR.2, hrpar]
        cases hchain with
        | root => exact Option.noConfusion hpid
        | @step P2 pid2 c2 hchain2 hmem2b =>
          have hc2 : c2 ∈ R ∧ c2.parent_id = pid2 := mem_repliesByParent_pid.mp hmem2b
          have hc2r : c2 = r := id_inj hN hc2.1 hcR.1 (Option.some_inj.mp hpid)
          exact ihFresh r hcR.1 hcR.2 (by rw [← hc2r]; exact List.mem_cons_self _ _)
      · rcases ihPar r h2 with h3 | ⟨p, hp, h4⟩
        · rw [hrpar] at h3
          exact Option.noConfusion h3
        · have hpc : p = c := id_inj hN (ihR p hp) hcR.1 (by
            have h5 : some p.id = some c.id := by rw [← h4, hrpar]
            exact (Option.some_inj.mp h5))
          exact ihFresh c hcR.1 hcR.2 (hpc ▸ hp)
    · intro r hr
      rcases List.mem_cons.mp hr with h1 | h2
      · subst h1
        cases hchain with
        | root => exact Or.inl hcR.2
        | @step P2 pid2 c2 hchain2 hmem2b =>
          exact Or.inr ⟨c2, List.mem_cons.mpr (Or.inr (List.mem_cons_self _ _)), hcR.2⟩
      · rcases ihPar r h2 with h3 | ⟨p, hp, h4⟩
        · exact Or.inl h3
        · exact Or.inr ⟨p, List.mem_cons.mpr (Or.inr hp), h4⟩

/-- A flatMap only looks at its function on members of the list. -/
theorem flatMap_congr_mem {α β : Type _} {l : List α} {f g : α → List β}
    (h : ∀ a ∈ l, f a = g a) : l.flatMap f = l.flatMap g := by
  induction l with
  | nil => rfl
  | cons a rest ih =>
    rw [List.flatMap_cons, List.flatMap_cons, h a (by simp),
      ih (fun x hx => h x (by simp [hx]))]

/-- On a thread with pairwise distinct ids the expansion is fuel-independent
once the fuel exceeds the number of replies not yet consumed by the spine:
each level of the recursion consumes a fresh reply. -/
theorem renderRepliesFuel_stab {R : List Reply} (hN : (R.map Reply.id).Nodup) :
    ∀ fuel₁ fuel₂ P pid depth, Chain R P pid →
      R.length + 1 ≤ fuel₁ + P.length → R.length + 1 ≤ fuel₂ + P.length →
      renderRepliesFuel R fuel₁ pid depth = renderRepliesFuel R fuel₂ pid depth := by
  intro fuel₁
  induction fuel₁ with
  | zero =>
    intro fuel₂ P pid depth hchain h1 h2
    exfalso
    obtain ⟨hsub, hnd, -, -⟩ := chain_facts hN hchain
    have hlen : P.length ≤ R.length := (hnd.subperm (fun _ ha => hsub _ ha)).length_le
    omega
  | succ f ih =>
    intro fuel₂ P pid depth hchain h1 h2
    cases fuel₂ with
    | zero =>
      exfalso
      obtain ⟨hsub, hnd, -, -⟩ := chain_facts hN hchain
      have hlen : P.length ≤ R.length := (hnd.subperm (fun _ ha => hsub _ ha)).length_le
      omega
    | succ f2 =>
      simp only [renderRepliesFuel]
      apply flatMap_congr_mem
      intro c hcmem
      have hchain2 : Chain R (c :: P) (some c.id) := Chain.step hchain hcmem
      rw [ih f2 (c :: P) (some c.id) (depth + 1) hchain2
        (by simp only [List.length_cons]; omega) (by simp only [List.length_cons]; omega)]

/-- C5: the depth-first expansion of a thread's replies terminates for every
collection with pairwise distinct reply ids, with no acyclicity assumption:
cyclic parent references (a self-parent reply, a cycle of replies) are
unreachable from the root key, so the recursion stabilises at fuel
`length + 1` and larger budgets return the same sequence. -/
theorem renderReplies_terminates (R : List Reply) (hN : (R.map Reply.id).Nodup)
    (fuel : Nat) (hf : R.length + 1 ≤ fuel) :
    renderRepliesFuel R fuel none 0 = renderReplies R :=
  renderRepliesFuel_stab hN fuel (R.length + 1) [] none 0 Chain.root
    (by simpa using hf) (by simp)

/-- Witness for C5 at a concrete collection containing a self-parent reply and
a two-cycle besides a normal top-level reply. -/
theorem renderReplies_terminates_witness :
    (cycReplies.map Reply.id).Nodup ∧ cycReplies.length + 1 ≤ 9 ∧
      renderRepliesFuel cycReplies 9 none 0 = renderReplies cycReplies :=
  ⟨by decide, by decide, renderReplies_terminates cycReplies (by decide) 9 (by decide)⟩

/-- Composing parent iterations. -/
theorem pIter_add {R : List Reply} :
    ∀ m n (r q : Reply), pIter R m r = some q → pIter R (m + n) r = pIter R n q := by
  intro m
  induction m with
  | zero =>
    intro n r q h
    have hrq : r = q := Option.some_inj.mp h
    rw [Nat.zero_add, hrq]
  | succ k ih =>
    intro n r q h
    cases hp : parentOf R r with
    | none =>
      simp only [pIter, hp] at h
      exact Option.noConfusion h
    | some p =>
      simp only [pIter, hp] at h
      have hsucc : k + 1 + n = k + n + 1 := by omega
      rw [hsucc]
      simp only [pIter, hp]
      exact ih n p q h

/-- Peeling an iteration at the far end. -/
theorem pIter_succ_right {R : List Reply} :
    ∀ n (r : Reply), pIter R (n + 1) r = (pIter R n r).bind (parentOf R) := by
  intro n
  induction n with
  | zero =>
    intro r
    cases hp : parentOf R r <;> simp [pIter, hp]
  | succ k ih =>
    intro r
    cases hp : parentOf R r with
    | none => simp [pIter, hp]
    | some p =>
      have h1 : pIter R (k + 1 + 1) r = pIter R (k + 1) p := by simp [pIter, hp]
      have h2 : pIter R (k + 1) r = pIter R k p := by simp [pIter, hp]
      rw [h1, ih p, h2]

/-- A reply whose parent chain reaches the top sits on no parent cycle. -/
theorem reaches_no_cycle {R : List Reply} (hN : (R.map Reply.id).Nodup) {r : Reply}
    (h : Reaches R r) : ∀ n, pIter R (n + 1) r ≠ some r := by
  induction h with
  | @top r2 hr2 =>
    intro n hcon
    have hp : parentOf R r2 = none := by unfold parentOf; rw [hr2]
    simp only [pIter, hp] at hcon
    exact Option.noConfusion hcon
  | @step r2 q hqR hrpar hreach ih =>
    intro n hcon
    have hp : parentOf R r2 = some q := by
      unfold parentOf
      rw [hrpar]
      exact find_id_eq hN hqR
    simp only [pIter, hp] at hcon
    have h2 : pIter R (n + 1) q = some q := by
      rw [pIter_succ_right n q, hcon]
      exact hp
    exact ih n h2

/-- Everything emitted at some fuel is emitted at the next fuel. -/
theorem renderRepliesFuel_mono {R : List Reply} :
    ∀ fuel pid depth (x : Reply × Nat), x ∈ renderRepliesFuel R fuel pid depth →
      x ∈ renderRepliesFuel R (fuel + 1) pid depth := by
  intro fuel
  induction fuel with
  | zero =>
    intro pid depth x h
    simp [renderRepliesFuel] at h
  | succ f ih =>
    intro pid depth x h
    simp only [renderRepliesFuel] at h ⊢
    rcases List.mem_flatMap.mp h with ⟨c, hc, hx⟩
    refine List.mem_flatMap.mpr ⟨c, hc, ?_⟩
    rcases List.mem_cons.mp hx with h1 | h2
    · exact List.mem_cons.mpr (Or.inl h1)
    · exact List.mem_cons.mpr (Or.inr (ih _ _ x h2))

/-- Everything emitted at some fuel is emitted at any larger fuel. -/
theorem renderRepliesFuel_mono_le {R : List Reply} {fuel fuel' : Nat} (hle : fuel ≤ fuel') :
    ∀ pid depth (x : Reply × Nat), x ∈ renderRepliesFuel R fuel pid depth →
      x ∈ renderRepliesFuel R fuel' pid depth := by
  induction hle with
  | refl => exact fun pid depth x h => h
  | step h2 ih => exact fun pid depth x h => renderRepliesFuel_mono _ _ _ x (ih pid depth x h)

/-- Emitted replies belong to the thread. -/
theorem emit_mem {R : List Reply} :
    ∀ fuel pid depth (x : Reply × Nat), x ∈ renderRepliesFuel R fuel pid depth → x.1 ∈ R := by
  intro fuel
  induction fuel with
  | zero =>
    intro pid depth x h
    simp [renderRepliesFuel] at h
  | succ f ih =>
    intro pid depth x h
    simp only [renderRepliesFuel] at h
    rcases List.mem_flatMap.mp h with ⟨c, hc, hx⟩
    rcases List.mem_cons.mp hx with h1 | h2
    · rw [h1]
      exact (mem_repliesByParent.mp hc).1
    · exact ih _ _ x h2

/-- An emitted reply has an ancestor chain leading back to the expanded key. -/
theorem emit_ancestor {R : List Reply} (hN : (R.map Reply.id).Nodup) :
    ∀ fuel pid depth (r : Reply) (d : Nat), (r, d) ∈ renderRepliesFuel R fuel pid depth →
      ∃ n c, pIter R n r = some c ∧ c.parent_id = pid := by
  intro fuel
  induction fuel with
  | zero =>
    intro pid depth r d h
    simp [renderRepliesFuel] at h
  | succ f ih =>
    intro pid depth r d h
    simp only [renderRepliesFuel] at h
    rcases List.mem_flatMap.mp h with ⟨c, hc, hx⟩
    have hcRp := mem_repliesByParent_pid.mp hc
    rcases List.mem_cons.mp hx with h1 | h2
    · have hrc : r = c := congrArg Prod.fst h1
      refine ⟨0, r, rfl, ?_⟩
      rw [hrc]
      exact hcRp.2
    · rcases ih _ _ r d h2 with ⟨n, c2, hiter, hpar⟩
      have hpo : parentOf R c2 = some c := by
        unfold parentOf
        rw [hpar]
        exact find_id_eq hN hcRp.1
      refine ⟨n + 1, c, ?_, hcRp.2⟩
      rw [pIter_succ_right n r, hiter]
      exact hpo

/-- Once a reply is emitted, one more unit of fuel emits each of its children
one level deeper. -/
theorem child_emit {R : List Reply} {q x : Reply} :
    ∀ fuel pid depth (d : Nat), (q, d) ∈ renderRepliesFuel R fuel pid depth →
      x ∈ repliesByParent R (parentKey (some q.id)) →
      (x, d + 1) ∈ renderRepliesFuel R (fuel + 1) pid depth := by
  intro fuel
  induction fuel with
  | zero =>
    intro pid depth d h hx
    simp [renderRepliesFuel] at h
  | succ f ih =>
    intro pid depth d h hx
    simp only [renderRepliesFuel] at h ⊢
    rcases List.mem_flatMap.mp h with ⟨c, hc, hmem⟩
    rcases List.mem_cons.mp hmem with h1 | h2
    · have hq : q = c := congrArg Prod.fst h1
      have hd : d = depth := congrArg Prod.snd h1
      refine List.mem_flatMap.mpr ⟨c, hc, List.mem_cons.mpr (Or.inr ?_)⟩
      refine List.mem_flatMap.mpr ⟨x, ?_, List.mem_cons.mpr (Or.inl ?_)⟩
      · rw [← hq]
        exact hx
      · rw [hd]
    · refine List.mem_flatMap.mpr ⟨c, hc, List.mem_cons.mpr (Or.inr ?_)⟩
      exact ih _ _ d h2 hx

/-- Every reply whose parent chain reaches the top is emitted at some fuel. -/
theorem reaches_emitted {R : List Reply} (hN : (R.map Reply.id).Nodup) {r : Reply}
    (h : Reaches R r) : r ∈ R → ∃ fuel d, (r, d) ∈ renderRepliesFuel R fuel none 0 := by
  induction h with
  | @top r2 hr2 =>
    intro hrR
    refine ⟨1, 0, ?_⟩
    simp only [renderRepliesFuel]
    exact List.mem_flatMap.mpr
      ⟨r2, mem_repliesByParent_pid.mpr ⟨hrR, hr2⟩, List.mem_cons.mpr (Or.inl rfl)⟩
  | @step r2 q hqR hpar hreach ih =>
    intro hrR
    rcases ih hqR with ⟨f, d, hf⟩
    exact ⟨f + 1, d + 1, child_emit f none 0 d hf (mem_repliesByParent_pid.mpr ⟨hrR, hpar⟩)⟩

/-- Structure of an emission: it happens at the entry depth with the expanded
key as parent, or strictly deeper with an emitted reply as parent. -/
theorem emit_depth {R : List Reply} :
    ∀ fuel pid depth (r : Reply) (d : Nat), (r, d) ∈ renderRepliesFuel R fuel pid depth →
      (d = depth ∧ r.parent_id = pid) ∨
        (depth < d ∧ ∃ c, c ∈ R ∧ (c, d - 1) ∈ renderRepliesFuel R fuel pid depth ∧
          r.parent_id = some c.id) := by
  intro fuel
  induction fuel with
  | zero =>
    intro pid depth r d h
    simp [renderRepliesFuel] at h
  | succ f ih =>
    intro pid depth r d h
    simp only [renderRepliesFuel] at h
    rcases List.mem_flatMap.mp h with ⟨c, hc, hx⟩
    have hcp := mem_repliesByParent_pid.mp hc
    rcases List.mem_cons.mp hx with h1 | h2
    · have hrc : r = c := congrArg Prod.fst h1
      have hd : d = depth := congrArg Prod.snd h1
      exact Or.inl ⟨hd, by rw [hrc]; exact hcp.2⟩
    · rcases ih (some c.id) (depth + 1) r d h2 with ⟨hd, hpar⟩ | ⟨hlt, c2, hc2R, hc2mem, hpar⟩
      · refine Or.inr ⟨by omega, c, hcp.1, ?_, hpar⟩
        simp only [renderRepliesFuel]
        refine List.mem_flatMap.mpr ⟨c, hc, List.mem_cons.mpr (Or.inl ?_)⟩
        simp [hd]
      · refine Or.inr ⟨by omega, c2, hc2R, ?_, hpar⟩
        simp only [renderRepliesFuel]
        exact List.mem_flatMap.mpr ⟨c, hc, List.mem_cons.mpr (Or.inr hc2mem)⟩

/-- A reply listed in the segment rendered for `c` has `c` on its ancestor
chain. -/
theorem seg_pIter {R : List Reply} (hN : (R.map Reply.id).Nodup) {c y : Reply}
    {f depth : Nat} (hcR : c ∈ R)
    (h : y ∈ ((c, depth) :: renderRepliesFuel R f (some c.id) (depth + 1)).map Prod.fst) :
    ∃ m, pIter R m y = some c := by
  rcases List.mem_map.mp h with ⟨⟨y1, y2⟩, hy, hy1⟩
  have hy1y : y1 = y := hy1
  subst hy1y
  rcases List.mem_cons.mp hy with h1 | h2
  · have hyc : y1 = c := congrArg Prod.fst h1
    exact ⟨0, congrArg some hyc⟩
  · rcases emit_ancestor hN f (some c.id) (depth + 1) y1 y2 h2 with ⟨n, c2, hiter, hpar⟩
    have hpo : parentOf R c2 = some c := by
      unfold parentOf
      rw [hpar]
      exact find_id_eq hN hcR
    refine ⟨n + 1, ?_⟩
    rw [pIter_succ_right n y1, hiter]
    exact hpo

/-- Two distinct replies hanging off the same key cannot both sit on the
ancestor chain of one reply when the key is the root or the id of a reply of a
fully root-reaching thread. -/
theorem pIter_strict_clash {R : List Reply} (hN : (R.map Reply.id).Nodup)
    (hR : ∀ r ∈ R, Reaches R r) {a b y : Reply} {pid : Option Nat}
    (hap : a.parent_id = pid) (hbp : b.parent_id = pid)
    (hpid : pid = none ∨ ∃ c0, c0 ∈ R ∧ pid = some c0.id)
    {m m2 : Nat} (hlt : m < m2)
    (hma : pIter R m y = some a) (hmb : pIter R m2 y = some b) : False := by
  have hadd := pIter_add m (m2 - m) y a hma
  rw [Nat.add_sub_cancel' (le_of_lt hlt)] at hadd
  rw [hadd] at hmb
  obtain ⟨k, hk2⟩ : ∃ k, m2 - m = k + 1 := ⟨m2 - m - 1, by omega⟩
  rw [hk2] at hmb
  rcases hpid with hnone | ⟨c0, hc0R, hsome⟩
  · have hpa : parentOf R a = none := by
      unfold parentOf
      rw [hap, hnone]
    simp only [pIter, hpa] at hmb
    exact Option.noConfusion hmb
  · have hpa : parentOf R a = some c0 := by
      unfold parentOf
      rw [hap, hsome]
      exact find_id_eq hN hc0R
    have hpb : parentOf R b = some c0 := by
      unfold parentOf
      rw [hbp, hsome]
      exact find_id_eq hN hc0R
    simp only [pIter, hpa] at hmb
    have hcyc : pIter R (k + 1) c0 = some c0 := by
      rw [pIter_succ_right k c0, hmb]
      exact hpb
    exact reaches_no_cycle hN (hR c0 hc0R) k hcyc

/-- With pairwise distinct ids and a fully root-reaching thread, the rendering
sequence lists pairwise distinct replies. -/
theorem emitted_nodup {R : List Reply} (hN : (R.map Reply.id).Nodup)
    (hR : ∀ r ∈ R, Reaches R r) :
    ∀ fuel pid depth, (pid = none ∨ ∃ c0, c0 ∈ R ∧ pid = some c0.id) →
      ((renderRepliesFuel R fuel pid depth).map Prod.fst).Nodup := by
  intro fuel
  induction fuel with
  | zero =>
    intro pid depth hpid
    simp [renderRepliesFuel]
  | succ f ih =>
    intro pid depth hpid
    simp only [renderRepliesFuel]
    rw [List.map_flatMap, List.nodup_flatMap]
    constructor
    · intro c hc
      have hcp := mem_repliesByParent_pid.mp hc
      simp only [List.map_cons]
      refine List.nodup_cons.mpr ⟨?_, ih (some c.id) (depth + 1) (Or.inr ⟨c, hcp.1, rfl⟩)⟩
      intro hcmem
      rcases List.mem_map.mp hcmem with ⟨⟨y1, y2⟩, hy, hy1⟩
      have hy1c : y1 = c := hy1
      subst hy1c
      rcases emit_ancestor hN f (some y1.id) (depth + 1) y1 y2 hy with ⟨n, c2, hiter, hpar⟩
      have hpo : parentOf R c2 = some y1 := by
        unfold parentOf
        rw [hpar]
        exact find_id_eq hN hcp.1
      have hcyc : pIter R (n + 1) y1 = some y1 := by
        rw [pIter_succ_right n y1, hiter]
        exact hpo
      exact reaches_no_cycle hN (hR y1 hcp.1) n hcyc
    · have hnd := repliesByParent_nodup hN (parentKey pid)
      refine List.Pairwise.imp_of_mem ?_ hnd
      intro a b ha hb hne
      simp only [Function.onFun]
      intro y hya hyb
      have hap := mem_repliesByParent_pid.mp ha
      have hbp := mem_repliesByParent_pid.mp hb
      rcases seg_pIter hN hap.1 hya with ⟨m, hma⟩
      rcases seg_pIter hN hbp.1 hyb with ⟨m2, hmb⟩
      rcases lt_trichotomy m m2 with hlt | heq | hgt
      · exact pIter_strict_clash hN hR hap.2 hbp.2 hpid hlt hma hmb
      · rw [heq] at hma
        rw [hma] at hmb
        exact hne (Option.some_inj.mp hmb)
      · exact pIter_strict_clash hN hR hbp.2 hap.2 hpid hgt hmb hma

/-- C3 (amended): on a thread with pairwise distinct reply ids in which every
reply's parent chain resolves down to a top-level reply, the depth-first
expansion of the parent grouping from the root key emits every reply of the
collection exactly once; and every emitted reply whose parent id resolves to a
reply of the collection has that parent emitted at depth one less. -/
theorem renderReplies_forest_exactly_once (R : List Reply)
    (hN : (R.map Reply.id).Nodup) (hR : ∀ r ∈ R, Reaches R r) :
    (∀ r ∈ R, ((renderReplies R).map Prod.fst).count r = 1) ∧
      (∀ (r : Reply) (d : Nat) (p : Nat) (q : Reply),
        (r, d) ∈ renderReplies R → r.parent_id = some p → q ∈ R → q.id = p →
        0 < d ∧ (q, d - 1) ∈ renderReplies R) := by
  constructor
  · intro r hrR
    have hnd : ((renderReplies R).map Prod.fst).Nodup :=
      emitted_nodup hN hR (R.length + 1) none 0 (Or.inl rfl)
    have hmem : r ∈ (renderReplies R).map Prod.fst := by
      rcases reaches_emitted hN (hR r hrR) hrR with ⟨f, d, hf⟩
      have hbig : (r, d) ∈ renderRepliesFuel R (max f (R.length + 1)) none 0 :=
        renderRepliesFuel_mono_le (le_max_left _ _) none 0 (r, d) hf
      rw [renderReplies_terminates R hN (max f (R.length + 1)) (le_max_right _ _)] at hbig
      exact List.mem_map.mpr ⟨(r, d), hbig, rfl⟩
    exact List.count_eq_one_of_mem hnd hmem
  · intro r d p q hmem hpar hqR hqid
    rcases emit_depth (R.length + 1) none 0 r d hmem with ⟨hd, hpid⟩ | ⟨hlt, c, hcR, hcmem, hcpar⟩
    · rw [hpar] at hpid
      exact Option.noConfusion hpid
    · have hcidp : c.id = p := by
        have h5 : some c.id = some p := by rw [← hcpar, hpar]
        exact Option.some_inj.mp h5
      have hcq : c = q := id_inj hN hcR hqR (by rw [hcidp, hqid])
      exact ⟨hlt, hcq ▸ hcmem⟩

/-- Witness for C3 (amended) at a concrete two-level thread: the top-level
reply is emitted exactly once. -/
theorem renderReplies_forest_exactly_once_witness :
    ((renderReplies forestReplies).map Prod.fst).count ⟨1, 1, none, "top", none, true, 10⟩ = 1 := by
  have hR : ∀ r ∈ forestReplies, Reaches forestReplies r := by
    intro r hr
    fin_cases hr
    · exact Reaches.top rfl
    · exact Reaches.step (q := ⟨1, 1, none, "top", none, true, 10⟩) (by decide) rfl
        (Reaches.top rfl)
    · exact Reaches.top rfl
  exact (renderReplies_forest_exactly_once forestReplies (by decide) hR).1 _ (by decide)

/-- Counterexample to C3 as stated: in a collection holding one orphan reply
(parent id 99 matches no reply id), the flattening does not yield that reply
at all, so not every reply of the collection is yielded exactly once. -/
theorem orphan_breaks_exactly_once :
    (⟨1, 1, some 99, "orphan", none, true, 0⟩ : Reply) ∈ orphanReplies ∧
      ((renderReplies orphanReplies).map Prod.fst).count
        ⟨1, 1, some 99, "orphan", none, true, 0⟩ = 0 := by
  decide

/-- C2 (amended): a reply whose parent id matches no reply id in the thread is
dropped, not promoted: it appears in the depth-first rendering sequence at no
depth and no fuel (in particular not at depth 0), and the expansion returns a
sequence rather than crashing. -/
theorem orphan_not_rendered (R : List Reply) (r : Reply) (p : Nat)
    (hr : r ∈ R) (hp : r.parent_id = some p) (hno : ∀ s ∈ R, s.id ≠ p) :
    ∀ fuel d, (r, d) ∉ renderRepliesFuel R fuel none 0 := by
  intro fuel d hmem
  rcases emit_depth fuel none 0 r d hmem with ⟨hd, hpid⟩ | ⟨hlt, c, hcR, hcmem, hcpar⟩
  · rw [hp] at hpid
    exact Option.noConfusion hpid
  · have h5 : some p = some c.id := by rw [← hp, hcpar]
    exact hno c hcR (Option.some_inj.mp h5).symm

/-- Witness for C2 (amended) at the concrete orphan collection. -/
theorem orphan_not_rendered_witness :
    (⟨1, 1, some 99, "orphan", none, true, 0⟩ : Reply) ∈ orphanReplies ∧
      (⟨1, 1, some 99, "orphan", none, true, 0⟩, 0) ∉
        renderRepliesFuel orphanReplies 2 none 0 :=
  ⟨by decide,
    orphan_not_rendered orphanReplies ⟨1, 1, some 99, "orphan", none, true, 0⟩ 99
      (by decide) rfl (by decide) 2 0⟩

/-- Counterexample to C2 as stated: in a collection with an orphan reply
(parent id 5 unmatched) and one top-level reply, the rendering sequence
consists of the top-level reply alone, so the orphan does not appear at
depth 0. -/
theorem orphan_no_promotion :
    (⟨1, 1, some 5, "lost", none, true, 0⟩ : Reply) ∈ orphanReplies2 ∧
      renderReplies orphanReplies2 = [(⟨2, 1, none, "top", none, true, 0⟩, 0)] := by
  decide

/-- C4: the tree builder groups by parent reference (the synthetic root key
standing for null parents), a group holds exactly the thread's replies
carrying that key, its members are in non-decreasing order of creation
timestamp, and members with equal timestamps keep the relative order they had
in the input (the filtered input sliced at any fixed timestamp survives the
sort unchanged). -/
theorem repliesByParent_spec (R : List Reply) (key : String) :
    (∀ r : Reply, r ∈ repliesByParent R key ↔ r ∈ R ∧ groupKey r = key) ∧
      (repliesByParent R key).Perm (R.filter (fun r => groupKey r == key)) ∧
      (repliesByParent R key).Pairwise (fun a b => a.created_at ≤ b.created_at) ∧
      ∀ t : Int, (repliesByParent R key).filter (fun r => r.created_at == t) =
        (R.filter (fun r => groupKey r == key)).filter (fun r => r.created_at == t) :=
  ⟨fun _ => mem_repliesByParent, sortByCreated_perm _, sortByCreated_sorted _,
    fun t => filter_sortByCreated _ t⟩

/-- A value looked up in a token map is the value of one of its entries. -/
theorem assocGet_mem {m : List (Nat × String)} {k : Nat} {v : String}
    (h : assocGet m k = some v) : ∃ e, e ∈ m ∧ e.2 = v := by
  unfold assocGet at h
  cases hf : m.find? (fun e => e.1 == k) with
  | none =>
    rw [hf] at h
    exact Option.noConfusion h
  | some e =>
    rw [hf] at h
    exact ⟨e, List.mem_of_find?_eq_some hf, Option.some_inj.mp h⟩

/-- C1: on a state whose recorded tokens are non-empty strings (every token
the client ever records comes from `generateOwnerToken` or a non-empty server
token, so this is an invariant of the store), the delete capability holds iff
a token is recorded for the id and the session is active; it is false for an
id with no recorded token, and false whenever no session is active, for
threads and replies alike. -/
theorem canDelete_spec (st : AppState) (id : Nat)
    (hth : ∀ e ∈ st.threadTokens, e.2 ≠ "") (hrp : ∀ e ∈ st.replyTokens, e.2 ≠ "") :
    (canDeleteThread st id = true ↔
        (assocGet st.threadTokens id).isSome ∧ isAuthed st = true) ∧
      (canDeleteReply st id = true ↔
        (assocGet st.replyTokens id).isSome ∧ isAuthed st = true) ∧
      (assocGet st.threadTokens id = none → canDeleteThread st id = false) ∧
      (assocGet st.replyTokens id = none → canDeleteReply st id = false) ∧
      (isAuthed st = false → canDeleteThread st id = false ∧ canDeleteReply st id = false) := by
  have key : ∀ tokens : List (Nat × String), (∀ e ∈ tokens, e.2 ≠ "") →
      ((jsTruthy (assocGet tokens id) && isAuthed st) = true ↔
        (assocGet tokens id).isSome ∧ isAuthed st = true) := by
    intro tokens htok
    cases hget : assocGet tokens id with
    | none => simp [jsTruthy]
    | some t =>
      rcases assocGet_mem hget with ⟨e, hem, hev⟩
      have ht : t ≠ "" := hev ▸ htok e hem
      simp [jsTruthy, ht]
  refine ⟨key st.threadTokens hth, key st.replyTokens hrp, ?_, ?_, ?_⟩
  · intro h
    unfold canDeleteThread
    rw [h]
    rfl
  · intro h
    unfold canDeleteReply
    rw [h]
    rfl
  · intro h
    unfold canDeleteThread canDeleteReply
    rw [h]
    simp

/-- Witness for C1 at a concrete signed-in state. -/
theorem canDelete_spec_witness :
    (∀ e ∈ authedState.threadTokens, e.2 ≠ "") ∧
      (∀ e ∈ authedState.replyTokens, e.2 ≠ "") ∧
      (canDeleteThread authedState 1 = true ↔
        (assocGet authedState.threadTokens 1).isSome ∧ isAuthed authedState = true) :=
  ⟨by decide, by decide, (canDelete_spec authedState 1 (by decide) (by decide)).1⟩

/-- C6: an operation whose network interaction fails (non-success status or
transport error, both landing in the catch block) leaves both ownership token
maps and the session exactly as they were: a failed create registers no token
and a failed delete removes none. -/
theorem failed_ops_preserve_state :
    (∀ (st : AppState) (ot msg : String),
        ownershipCore (handleCreateThread st ot (Except.error msg)).1 = ownershipCore st) ∧
      (∀ (st : AppState) (tid : Nat) (ot msg : String),
        ownershipCore (handleCreateReply st tid ot (Except.error msg)).1 = ownershipCore st) ∧
      (∀ (st : AppState) (tid : Nat) (msg : String),
        ownershipCore (handleDeleteThread st tid (Except.error msg)).1 = ownershipCore st) ∧
      (∀ (st : AppState) (tid rid : Nat) (msg : String),
        ownershipCore (handleDeleteReply st tid rid (Except.error msg)).1 = ownershipCore st) := by
  refine ⟨?_, ?_, ?_, ?_⟩
  · intro st ot msg
    by_cases h : jsTruthy st.authToken = true <;> simp [handleCreateThread, ownershipCore, h]
  · intro st tid ot msg
    by_cases h : jsTruthy st.authToken = true <;> simp [handleCreateReply, ownershipCore, h]
  · intro st tid msg
    by_cases h : jsTruthy (assocGet st.threadTokens tid) = true <;>
      simp [handleDeleteThread, ownershipCore, h]
  · intro st tid rid msg
    by_cases h : jsTruthy (assocGet st.replyTokens rid) = true <;>
      simp [handleDeleteReply, ownershipCore, h]

/-- C7 (amended): with a falsy bearer token, create thread and create reply
are rejected before any network call with a clear local message; a delete with
no recorded owner token for the target returns silently before any network
call (state unchanged, no message); but a delete with a recorded token issues
the network request regardless of the session. -/
theorem local_rejection_spec :
    (∀ (st : AppState) (ot : String) (resp : Except String ThreadCreateResponse),
        jsTruthy st.authToken = false →
          (handleCreateThread st ot resp).2 = false ∧
            (handleCreateThread st ot resp).1.error =
              some "Please sign in to create a thread.") ∧
      (∀ (st : AppState) (tid : Nat) (ot : String) (resp : Except String ReplyCreateResponse),
        jsTruthy st.authToken = false →
          (handleCreateReply st tid ot resp).2 = false ∧
            (handleCreateReply st tid ot resp).1.error = some "Please sign in to reply.") ∧
      (∀ (st : AppState) (tid : Nat) (resp : Except String Unit),
        jsTruthy (assocGet st.threadTokens tid) = false →
          handleDeleteThread st tid resp = (st, false)) ∧
      (∀ (st : AppState) (tid rid : Nat) (resp : Except String Unit),
        jsTruthy (assocGet st.replyTokens rid) = false →
          handleDeleteReply st tid rid resp = (st, false)) ∧
      (∀ (st : AppState) (tid : Nat) (resp : Except String Unit),
        jsTruthy (assocGet st.threadTokens tid) = true →
          (handleDeleteThread st tid resp).2 = true) ∧
      (∀ (st : AppState) (tid rid : Nat) (resp : Except String Unit),
        jsTruthy (assocGet st.replyTokens rid) = true →
          (handleDeleteReply st tid rid resp).2 = true) := by
  refine ⟨?_, ?_, ?_, ?_, ?_, ?_⟩
  · intro st ot resp h
    simp [handleCreateThread, h]
  · intro st tid ot resp h
    simp [handleCreateReply, h]
  · intro st tid resp h
    simp [handleDeleteThread, h]
  · intro st tid rid resp h
    simp [handleDeleteReply, h]
  · intro st tid resp h
    cases resp <;> simp [handleDeleteThread, h]
  · intro st tid rid resp h
    cases resp <;> simp [handleDeleteReply, h]

/-- Witness for C7 (amended): a signed-out state rejects thread creation
locally with the sign-in message and no network request. -/
theorem local_rejection_spec_witness :
    jsTruthy signedOutState.authToken = false ∧
      (handleCreateThread signedOutState "t" (Except.ok ⟨9, "srv"⟩)).2 = false ∧
      (handleCreateThread signedOutState "t" (Except.ok ⟨9, "srv"⟩)).1.error =
        some "Please sign in to create a thread." :=
  ⟨by decide,
    (local_rejection_spec.1 signedOutState "t" (Except.ok ⟨9, "srv"⟩) (by decide)).1,
    (local_rejection_spec.1 signedOutState "t" (Except.ok ⟨9, "srv"⟩) (by decide)).2⟩

/-- Counterexample to C7 as stated: in a state with a bearer token but no user
profile, no session is active, yet a thread delete with a recorded owner token
issues the network request instead of being rejected locally. -/
theorem delete_without_session_hits_network :
    isAuthed noSessionState = false ∧
      (handleDeleteThread noSessionState 1 (Except.ok ())).2 = true := by
  decide

/-- C10: the displayed author is "Anonymous" whenever the anonymity flag is
set, regardless of the name; with the flag clear it is the name when that is
non-null and non-empty, and "Unknown" otherwise. -/
theorem formatAuthor_spec :
    (∀ name : Option String, formatAuthor name true = "Anonymous") ∧
      formatAuthor none false = "Unknown" ∧
      formatAuthor (some "") false = "Unknown" ∧
      ∀ s : String, s ≠ "" → formatAuthor (some s) false = s := by
  refine ⟨fun name => rfl, rfl, rfl, ?_⟩
  intro s hs
  simp [formatAuthor, jsOrString, hs]

/-- Witness for C10 at a concrete non-empty name. -/
theorem formatAuthor_spec_witness :
    ("alice" : String) ≠ "" ∧ formatAuthor (some "alice") false = "alice" :=
  ⟨by decide, formatAuthor_spec.2.2.2 "alice" (by decide)⟩

/-- C9: rehydration never fails: a missing or empty raw value initialises the
token map to empty and the stored session to absent, a parse exception does
the same, and the exception `Object.entries` raises on a stored `null` is also
caught into the empty map. -/
theorem rehydration_defaults (jsonParse : String → Except Unit Json) :
    readTokenMap jsonParse none = [] ∧
      readTokenMap jsonParse (some "") = [] ∧
      (∀ s, jsonParse s = Except.error () → readTokenMap jsonParse (some s) = []) ∧
      (∀ s, jsonParse s = Except.ok Json.null → readTokenMap jsonParse (some s) = []) ∧
      readStoredAuthUser jsonParse none = none ∧
      readStoredAuthUser jsonParse (some "") = none ∧
      (∀ s, jsonParse s = Except.error () → readStoredAuthUser jsonParse (some s) = none) := by
  refine ⟨rfl, rfl, ?_, ?_, rfl, rfl, ?_⟩
  · intro s h
    cases hs : (s == "") <;> simp [readTokenMap, hs, h]
  · intro s h
    cases hs : (s == "") <;> simp [readTokenMap, jsObjectEntries, hs, h]
  · intro s h
    cases hs : (s == "") <;> simp [readStoredAuthUser, hs, h]

/-- Witness for C9 with an always-failing parse on a concrete raw value. -/
theorem rehydration_defaults_witness :
    failParse "junk" = Except.error () ∧ readTokenMap failParse (some "junk") = [] ∧
      readStoredAuthUser failParse (some "junk") = none :=
  ⟨rfl, (rehydration_defaults failParse).2.2.1 "junk" rfl,
    (rehydration_defaults failParse).2.2.2.2.2.2 "junk" rfl⟩

/-- Recording a token makes it the value looked up at its id. -/
theorem assocGet_assocSet_self (m : List (Nat × String)) (k : Nat) (v : String) :
    assocGet (assocSet m k v) k = some v := by
  induction m with
  | nil =>
    unfold assocSet assocGet
    rw [List.find?_cons_of_pos _ (by simp)]
    rfl
  | cons e rest ih =>
    by_cases h : (e.1 == k) = true
    · unfold assocSet
      rw [if_pos h]
      unfold assocGet
      rw [List.find?_cons_of_pos _ (by simp)]
      rfl
    · unfold assocSet
      rw [if_neg h]
      show assocGet (e :: assocSet rest k v) k = some v
      unfold assocGet
      rw [List.find?_cons_of_neg _ (by simpa using h)]
      exact ih

/-- Keys after a record are the old keys or the recorded one. -/
theorem assocSet_keys_mem {m : List (Nat × String)} {k : Nat} {v : String} {x : Nat}
    (h : x ∈ (assocSet m k v).map Prod.fst) : x ∈ m.map Prod.fst ∨ x = k := by
  induction m with
  | nil =>
    simp [assocSet] at h
    exact Or.inr h
  | cons e rest ih =>
    by_cases hek : (e.1 == k) = true
    · unfold assocSet at h
      rw [if_pos hek] at h
      simp only [List.map_cons] at h
      rcases List.mem_cons.mp h with h1 | h2
      · exact Or.inr h1
      · exact Or.inl (by simp only [List.map_cons]; exact List.mem_cons.mpr (Or.inr h2))
    · unfold assocSet at h
      rw [if_neg hek] at h
      simp only [List.map_cons] at h
      rcases List.mem_cons.mp h with h1 | h2
      · exact Or.inl (by simp only [List.map_cons]; exact List.mem_cons.mpr (Or.inl h1))
      · rcases ih h2 with h3 | h4
        · exact Or.inl (by simp only [List.map_cons]; exact List.mem_cons.mpr (Or.inr h3))
        · exact Or.inr h4

/-- Recording preserves key uniqueness. -/
theorem assocSet_keys_nodup {m : List (Nat × String)} (hm : (m.map Prod.fst).Nodup)
    (k : Nat) (v : String) : ((assocSet m k v).map Prod.fst).Nodup := by
  induction m with
  | nil => simp [assocSet]
  | cons e rest ih =>
    simp only [List.map_cons] at hm
    have hmc := List.nodup_cons.mp hm
    by_cases hek : (e.1 == k) = true
    · unfold assocSet
      rw [if_pos hek]
      simp only [List.map_cons]
      refine List.nodup_cons.mpr ⟨?_, hmc.2⟩
      have hek2 : e.1 = k := by simpa using hek
      rw [← hek2]
      exact hmc.1
    · unfold assocSet
      rw [if_neg hek]
      simp only [List.map_cons]
      refine List.nodup_cons.mpr ⟨?_, ih hmc.2⟩
      intro hx
      rcases assocSet_keys_mem hx with h1 | h2
      · exact hmc.1 h1
      · exact hek (beq_iff_eq.mpr h2)

/-- Assigning a fresh key appends the pair. -/
theorem assocSetS_append {m : List (String × Json)} {k : String} (v : Json)
    (h : ∀ x ∈ m.map Prod.fst, x ≠ k) : assocSetS m k v = m ++ [(k, v)] := by
  induction m with
  | nil => rfl
  | cons e rest ih =>
    have he : (e.1 == k) = false := beq_eq_false_iff_ne.mpr (h e.1 (by simp))
    unfold assocSetS
    rw [if_neg (by simp [he]), ih (fun x hx => h x (by simp only [List.map_cons]; exact List.mem_cons.mpr (Or.inr hx)))]
    rfl

/-- Folding assignments of pairwise fresh keys just appends them. -/
theorem fromEntries_foldl (l : List (String × Json)) :
    ∀ acc : List (String × Json), (l.map Prod.fst).Nodup →
      (∀ x ∈ l.map Prod.fst, x ∉ acc.map Prod.fst) →
      l.foldl (fun a e => assocSetS a e.1 e.2) acc = acc ++ l := by
  induction l with
  | nil =>
    intro acc _ _
    simp
  | cons e rest ih =>
    intro acc hnd hdisj
    simp only [List.map_cons] at hnd hdisj
    have hmc := List.nodup_cons.mp hnd
    simp only [List.foldl_cons]
    have hset : assocSetS acc e.1 e.2 = acc ++ [(e.1, e.2)] := by
      apply assocSetS_append
      intro x hx hxe
      exact hdisj e.1 (List.mem_cons.mpr (Or.inl rfl)) (hxe ▸ hx)
    rw [hset, ih (acc ++ [(e.1, e.2)]) hmc.2 ?fresh]
    · rw [List.append_assoc]
      rfl
    case fresh =>
      intro x hx hmem
      rw [List.map_append] at hmem
      rcases List.mem_append.mp hmem with h1 | h2
      · exact hdisj x (List.mem_cons.mpr (Or.inr hx)) h1
      · have hxe : x = e.1 := by simpa using h2
        exact hmc.1 (hxe ▸ hx)

/-- `Object.fromEntries` is the identity on uniquely-keyed entry lists. -/
theorem fromEntries_eq_self {l : List (String × Json)} (h : (l.map Prod.fst).Nodup) :
    fromEntries l = l := by
  unfold fromEntries
  rw [fromEntries_foldl l [] h (by simp)]
  rfl

/-- Lookup through an injective key translation. -/
theorem assocGetS_map {m : List (Nat × String)} {f : Nat → String} {g : String → Json}
    (hf : Function.Injective f) (k : Nat) :
    assocGetS (m.map (fun e => (f e.1, g e.2))) (f k) = (assocGet m k).map g := by
  induction m with
  | nil => rfl
  | cons e rest ih =>
    by_cases hek : e.1 = k
    · have hfe : (f e.1 == f k) = true := beq_iff_eq.mpr (congrArg f hek)
      unfold assocGetS assocGet
      simp only [List.map_cons]
      rw [List.find?_cons_of_pos _ (by simpa using hfe),
        List.find?_cons_of_pos _ (by simpa using beq_iff_eq.mpr hek)]
      rfl
    · have hfe : (f e.1 == f k) = false := beq_eq_false_iff_ne.mpr (fun hc => hek (hf hc))
      unfold assocGetS assocGet
      simp only [List.map_cons]
      rw [List.find?_cons_of_neg _ (by simp [hfe]),
        List.find?_cons_of_neg _ (by simp [hek])]
      exact ih

/-- `String(Number(k))` is the identity on the canonical keys the client
serialises. -/
theorem normalizeNumKey_natToKey (n : Nat) : normalizeNumKey (natToKey n) = natToKey n := by
  unfold normalizeNumKey
  rw [keyToNat_natToKey]

/-- Running the serialised entries through the key round trip changes
nothing. -/
theorem entries_normalized (m : List (Nat × String)) :
    (m.map (fun e => (natToKey e.1, Json.str e.2))).map
        (fun e => (normalizeNumKey e.1, e.2)) =
      m.map (fun e => (natToKey e.1, Json.str e.2)) := by
  rw [List.map_map]
  apply List.map_congr_left
  intro e _
  show (normalizeNumKey (natToKey e.1), Json.str e.2) = (natToKey e.1, Json.str e.2)
  rw [normalizeNumKey_natToKey]

/-- C8: recording a token and then reloading (the storage holding the string
form of the serialised map, which parses back to that JSON value) yields a
rehydrated store in which the same token is retrievable for the same id. -/
theorem recordOwnership_reload_roundtrip (m : List (Nat × String)) (id : Nat) (tok : String)
    (jsonParse : String → Except Unit Json) (raw : String)
    (hm : (m.map Prod.fst).Nodup) (hraw : raw ≠ "")
    (hparse : jsonParse raw = Except.ok (tokenMapToJson (assocSet m id tok))) :
    rehydratedLookup (readTokenMap jsonParse (some raw)) id = some (Json.str tok) := by
  have hrawb : (raw == "") = false := beq_eq_false_iff_ne.mpr hraw
  have step1 : readTokenMap jsonParse (some raw) =
      fromEntries (((assocSet m id tok).map (fun e => (natToKey e.1, Json.str e.2))).map
        (fun e => (normalizeNumKey e.1, e.2))) := by
    unfold readTokenMap
    dsimp only
    rw [if_neg (by simp [hrawb]), hparse]
    rfl
  rw [step1, entries_normalized]
  have hkeys2 : ((assocSet m id tok).map (fun e => (natToKey e.1, Json.str e.2))).map
      Prod.fst = ((assocSet m id tok).map Prod.fst).map natToKey := by
    rw [List.map_map, List.map_map]
    exact List.map_congr_left (fun e _ => rfl)
  have hkeys : (((assocSet m id tok).map
      (fun e => (natToKey e.1, Json.str e.2))).map Prod.fst).Nodup := by
    rw [hkeys2]
    exact (assocSet_keys_nodup hm id tok).map natToKey_injective
  rw [fromEntries_eq_self hkeys]
  unfold rehydratedLookup
  rw [assocGetS_map natToKey_injective id, assocGet_assocSet_self]
  rfl

/-- Witness for C8: the serialised one-entry store reloads to a store in which
id 7 still maps to its token. -/
theorem recordOwnership_reload_roundtrip_witness :
    (([] : List (Nat × String)).map Prod.fst).Nodup ∧ "payload" ≠ "" ∧
      rtParse "payload" = Except.ok (tokenMapToJson (assocSet [] 7 "tok")) ∧
      rehydratedLookup (readTokenMap rtParse (some "payload")) 7 = some (Json.str "tok") :=
  ⟨List.nodup_nil, by decide, rfl,
    recordOwnership_reload_roundtrip [] 7 "tok" rtParse "payload" List.nodup_nil
      (by decide) rfl⟩

end SpeakUp
